import Mathlib

set_option maxRecDepth 100000

/-!
Verification development for the go-msbuild project template rewriter
(src/msbuild.go).  The Go code is shallowly embedded: the `Element` node
model, the template scanner, the two section-rewrite policies, and the
filter-document builder are translated into executable Lean definitions,
and the specified properties are proved about them.  Paths follow the
Unix (slash-separated) build of the Go `path/filepath` package.
-/

namespace MSBuild

/-- Qualified XML name (Go `xml.Name`): a namespace and a local part. -/
structure XName where
  space : String
  lcl : String
deriving DecidableEq, Repr

/-- XML attribute (Go `xml.Attr`): qualified name and value. -/
structure XAttr where
  name : XName
  value : String
deriving DecidableEq, Repr

/-- The node model of src/msbuild.go: an `Element` has a qualified name,
an ordered attribute list and an ordered mixed-content children list whose
members are nested elements, text runs (Go `xml.CharData`) or comment runs
(Go `xml.Comment`). -/
inductive Node where
  | element (name : XName) (attrs : List XAttr) (children : List Node)
  | text (s : String)
  | comment (s : String)

mutual

/-- Structural decidable equality on nodes. -/
def nodeDecEq : (t t2 : Node) → Decidable (t = t2)
  | .element n a cs, .element n2 a2 cs2 =>
      if h1 : n = n2 then
        if h2 : a = a2 then
          match nodeListDecEq cs cs2 with
          | isTrue h3 => isTrue (by rw [h1, h2, h3])
          | isFalse h3 => isFalse (fun h => h3 (by injection h))
        else isFalse (fun h => h2 (by injection h))
      else isFalse (fun h => h1 (by injection h))
  | .element _ _ _, .text _ => isFalse (fun h => Node.noConfusion h)
  | .element _ _ _, .comment _ => isFalse (fun h => Node.noConfusion h)
  | .text _, .element _ _ _ => isFalse (fun h => Node.noConfusion h)
  | .text s, .text s2 =>
      if h : s = s2 then isTrue (by rw [h])
      else isFalse (fun hh => h (by injection hh))
  | .text _, .comment _ => isFalse (fun h => Node.noConfusion h)
  | .comment _, .element _ _ _ => isFalse (fun h => Node.noConfusion h)
  | .comment _, .text _ => isFalse (fun h => Node.noConfusion h)
  | .comment s, .comment s2 =>
      if h : s = s2 then isTrue (by rw [h])
      else isFalse (fun hh => h (by injection hh))

/-- Structural decidable equality on children lists. -/
def nodeListDecEq : (ts ts2 : List Node) → Decidable (ts = ts2)
  | [], [] => isTrue rfl
  | [], _ :: _ => isFalse (fun h => List.noConfusion h)
  | _ :: _, [] => isFalse (fun h => List.noConfusion h)
  | c :: cs, c2 :: cs2 =>
      match nodeDecEq c c2, nodeListDecEq cs cs2 with
      | isTrue h1, isTrue h2 => isTrue (by rw [h1, h2])
      | isFalse h1, _ => isFalse (fun h => h1 (by injection h))
      | _, isFalse h2 => isFalse (fun h => h2 (by injection h))

end

instance : DecidableEq Node := nodeDecEq

/-- Children accessor (text and comment runs carry no children). -/
def childrenOf : Node → List Node
  | .element _ _ cs => cs
  | _ => []

/-- Attributes accessor. -/
def attrsOf : Node → List XAttr
  | .element _ a _ => a
  | _ => []

/-! ## Token-level XML codec

Modelled from the spec: the tokenizer / token encoder of the repository's
`xml` package (imported as `github.com/kuma777/go-msbuild/xml`, not part of
src/) is represented as a stream of tokens — start tags, end tags,
character data, comments — plus a `bad` token standing for a tokenizer
error on malformed input.  `MarshalXML` and `UnmarshalXML` themselves are
translated from src/msbuild.go. -/

inductive Tok where
  | start (name : XName) (attrs : List XAttr)
  | stop (name : XName)
  | chardata (s : String)
  | commentTok (s : String)
  | bad
deriving DecidableEq, Repr

mutual

/-- `MarshalXML` (src/msbuild.go): emit the start tag with the stored name
and attribute list, encode each child in stored order, then the end tag. -/
def encNode : Node → List Tok
  | .element n a cs => .start n a :: encList cs ++ [.stop n]
  | .text s => [.chardata s]
  | .comment s => [.commentTok s]

/-- Children loop of `MarshalXML`. -/
def encList : List Node → List Tok
  | [] => []
  | c :: cs => encNode c ++ encList cs

end

/-- `UnmarshalXML` discards the namespace of the decoded element's own name. -/
def stripXName (n : XName) : XName := { n with space := "" }

mutual

/-- All element names in the tree carry an empty namespace. -/
def nsFree : Node → Bool
  | .element n _ cs => n.space == "" && nsFreeList cs
  | _ => true

def nsFreeList : List Node → Bool
  | [] => true
  | c :: cs => nsFree c && nsFreeList cs

end

mutual

/-- Effect of decoding on a tree: every element name's namespace is
discarded (attribute names are preserved). -/
def stripNode : Node → Node
  | .element n a cs => .element (stripXName n) a (stripList cs)
  | .text s => .text s
  | .comment s => .comment s

def stripList : List Node → List Node
  | [] => []
  | c :: cs => stripNode c :: stripList cs

end

/-- Result of decoding element content: children decoded so far, the
remaining token stream, and whether a decode error occurred. -/
structure DecRes where
  nodes : List Node
  rest : List Tok
  err : Bool

/-- Content loop of `UnmarshalXML` (src/msbuild.go), fuel-indexed.  A start
token triggers a recursive `DecodeElement` on the subtree (the decoded
element's namespace is discarded); character data and comments are appended
in encounter order; the element's own end tag, or exhaustion of the input,
concludes decoding normally; a tokenizer error aborts with the children
decoded so far kept (the erroring subtree's partially decoded element is
not appended, matching Go, where `DecodeElement` reports the error before
the child is appended). -/
def decContent : Nat → List Tok → DecRes
  | 0, toks => ⟨[], toks, true⟩
  | _ + 1, [] => ⟨[], [], false⟩
  | _ + 1, .bad :: rest => ⟨[], rest, true⟩
  | _ + 1, .stop _ :: rest => ⟨[], rest, false⟩
  | fuel + 1, .chardata s :: rest =>
      let r := decContent fuel rest
      ⟨.text s :: r.nodes, r.rest, r.err⟩
  | fuel + 1, .commentTok s :: rest =>
      let r := decContent fuel rest
      ⟨.comment s :: r.nodes, r.rest, r.err⟩
  | fuel + 1, .start n a :: rest =>
      let rc := decContent fuel rest
      if rc.err then ⟨[], rc.rest, true⟩
      else
        let child := Node.element (stripXName n) a rc.nodes
        let rs := decContent fuel rc.rest
        ⟨child :: rs.nodes, rs.rest, rs.err⟩

/-- The zero `Element` value (`&Element\x7b\x7d` in Go). -/
def zeroElement : Node := .element ⟨"", ""⟩ [] []

/-- `Decode` on a fresh `Element` (src/msbuild.go line 159): skip leading
non-element tokens, then run `UnmarshalXML` on the first start tag.  Returns
the (possibly partially) decoded tree and the error flag the caller
receives; exhaustion or a top-level error leaves the zero element. -/
def decodeDoc : List Tok → Node × Bool
  | [] => (zeroElement, true)
  | .chardata _ :: rest => decodeDoc rest
  | .commentTok _ :: rest => decodeDoc rest
  | .bad :: _ => (zeroElement, true)
  | .stop _ :: _ => (zeroElement, true)
  | .start n a :: rest =>
      let r := decContent rest.length rest
      (Node.element (stripXName n) a r.nodes, r.err)

/-! ## path/filepath model (Unix build)

The Go code uses `filepath.FromSlash`, `Ext`, `Dir`, `Split`, `Join`,
`Rel` and `Clean`.  They are modelled here for the slash-separated (Unix)
platform, where `FromSlash` is the identity. -/

/-- `filepath.FromSlash` on a slash-separated platform. -/
def fromSlash (s : String) : String := s

/-- The final path element: everything after the last slash. -/
def lastElem (cs : List Char) : List Char :=
  (cs.reverse.takeWhile (fun c => c ≠ '/')).reverse

/-- `filepath.Ext`: the suffix beginning at the final dot in the final
slash-separated element; empty if there is no dot. -/
def extGo (s : String) : String :=
  let base := lastElem s.data
  if base.contains '.' then ⟨'.' :: (base.reverse.takeWhile (fun c => c ≠ '.')).reverse⟩
  else ""

/-- Directory part of `filepath.Split`: everything up to and including the
final slash (empty if there is no slash). -/
def dirPartS (s : String) : String :=
  ⟨(s.data.reverse.dropWhile (fun c => c ≠ '/')).reverse⟩

/-- Component processing loop of `filepath.Clean`: drop empty and dot
components, let a dotdot component cancel the preceding component (dotdot
is kept when there is nothing to cancel and the path is not rooted, and
dropped at the root of a rooted path). -/
def cleanComps (rooted : Bool) : List (List Char) → List (List Char) → List (List Char)
  | acc, [] => acc.reverse
  | acc, c :: cs =>
      if c = [] ∨ c = ['.'] then cleanComps rooted acc cs
      else if c = ['.', '.'] then
        match acc with
        | [] => if rooted then cleanComps rooted [] cs else cleanComps rooted [c] cs
        | a :: as =>
            if a = ['.', '.'] then cleanComps rooted (c :: a :: as) cs
            else cleanComps rooted as cs
      else cleanComps rooted (c :: acc) cs

/-- `filepath.Clean` (Unix). -/
def cleanGo (s : String) : String :=
  let rooted := s.data.head? == some '/'
  let comps := cleanComps rooted [] (s.data.splitOn '/')
  let body := List.intercalate ['/'] comps
  if rooted then ⟨'/' :: body⟩
  else if body = [] then "." else ⟨body⟩

/-- `filepath.Dir`: the cleaned directory part of the path. -/
def dirGo (s : String) : String := cleanGo (dirPartS s)

/-- `filepath.Join` of two components: join the non-empty ones with a
slash and clean the result (all-empty input gives the empty string). -/
def joinGo (a b : String) : String :=
  if a = "" ∧ b = "" then ""
  else if a = "" then cleanGo b
  else if b = "" then cleanGo a
  else cleanGo (a ++ "/" ++ b)

/-- Components of a cleaned path, the leading root slash removed. -/
def compsOf (s : String) : List (List Char) :=
  let d := if s.data.head? == some '/' then s.data.drop 1 else s.data
  if d = [] then [] else d.splitOn '/'

/-- Strip the longest common component run from two component lists. -/
def commonStrip : List (List Char) → List (List Char) → List (List Char) × List (List Char)
  | b :: bs, t :: ts =>
      if b = t then commonStrip bs ts else (b :: bs, t :: ts)
  | bs, ts => (bs, ts)

/-- `filepath.Rel` (Unix): clean both paths; equal paths yield a dot; a
rooted/relative mismatch is an error; otherwise strip the common component
run, fail if the first remaining base component is dotdot, and emit one
dotdot per remaining base component followed by the remaining target
components. -/
def relGo (base targ : String) : Option String :=
  let b := cleanGo base
  let t := cleanGo targ
  if b = t then some "." else
  let br := b.data.head? == some '/'
  let tr := t.data.head? == some '/'
  if br ≠ tr then none else
  let bcs := if b = "." then [] else compsOf b
  let tcs := compsOf t
  let rem := commonStrip bcs tcs
  if rem.1.head? == some ['.', '.'] then none else
  some ⟨List.intercalate ['/'] (rem.1.map (fun _ => ['.', '.']) ++ rem.2)⟩

/-! ## Tree Scanner (`scanTemplate`, src/msbuild.go lines 96-109) -/

/-- The scanner's match test: the element's local name equals the fixed
target tag. -/
def isMatch : Node → Bool
  | .element n _ _ => n.lcl == "ItemGroup"
  | _ => false

mutual

/-- `scanTemplate` as the sequence of nodes the callback is invoked on: a
matching element is visited and its children are not descended into;
otherwise the scan recurses into element children in stored order, skipping
text and comment children. -/
def scanList : Node → List Node
  | .element n a cs =>
      if n.lcl = "ItemGroup" then [.element n a cs] else scanKids cs
  | _ => []

/-- Children dispatch of `scanTemplate` (the switch on the child's type). -/
def scanKids : List Node → List Node
  | [] => []
  | c :: rest =>
      match c with
      | .element _ _ _ => scanList c ++ scanKids rest
      | _ => scanKids rest

end

mutual

/-- `scanTemplate` with a mutating callback, as a tree transformation: the
callback is applied at each matched element, replacing it in place. -/
def scanApply (f : Node → Node) : Node → Node
  | .element n a cs =>
      if n.lcl = "ItemGroup" then f (.element n a cs)
      else .element n a (scanApplyKids f cs)
  | t => t

def scanApplyKids (f : Node → Node) : List Node → List Node
  | [] => []
  | c :: rest =>
      match c with
      | .element _ _ _ => scanApply f c :: scanApplyKids f rest
      | _ => c :: scanApplyKids f rest

end

/-! ## Specification-side scan description

A description of the scan independent of the scanner's short-circuiting
recursion: annotate every element of the tree, in depth-first pre-order
document order, with whether some proper ancestor matches; the scan must
visit exactly the matching elements that have no matching proper ancestor,
in that order. -/

mutual

/-- Every element of the tree in pre-order, paired with whether some
proper ancestor (within the traversed tree) is a match; `anc` records
whether an ancestor above the current root matched. -/
def elemsAnn (anc : Bool) : Node → List (Node × Bool)
  | .element n a cs => (.element n a cs, anc) :: elemsAnnKids (anc || (n.lcl == "ItemGroup")) cs
  | _ => []

def elemsAnnKids (anc : Bool) : List Node → List (Node × Bool)
  | [] => []
  | c :: cs => elemsAnn anc c ++ elemsAnnKids anc cs

end

/-- Specification-side visit list: the matching elements with no matching
proper ancestor, in document order. -/
def specScan (t : Node) : List Node :=
  ((elemsAnn false t).filter fun p => isMatch p.1 && !p.2).map Prod.fst

/-! ## Section Rewriter (`overrideSources` / `overrideHeaders`,
src/msbuild.go lines 111-143) -/

/-- `element.attributes = element.attributes[:0]`. -/
def clearAttributes : Node → Node
  | .element n _ cs => .element n [] cs
  | t => t

/-- One iteration of the `overrideSources` loop: a file whose extension is
neither `.cpp` nor `.cxx` is skipped; otherwise a `ClCompile` child with
the path as its `Include` attribute is appended, followed by a newline
text child. -/
def sourcesStep (e : Node) (file : String) : Node :=
  let f := fromSlash file
  let ext := extGo f
  if ext ≠ ".cpp" ∧ ext ≠ ".cxx" then e
  else
    match e with
    | .element n a cs =>
        .element n a (cs ++ [.element ⟨"", "ClCompile"⟩ [⟨⟨"", "Include"⟩, f⟩] [], .text "\n"])
    | t => t

/-- `overrideSources`: clear the attribute list, then run the loop. -/
def overrideSources (e : Node) (files : List String) : Node :=
  files.foldl sourcesStep (clearAttributes e)

/-- One iteration of the `overrideHeaders` loop: only `.h` files produce a
`ClInclude` child. -/
def headersStep (e : Node) (file : String) : Node :=
  let f := fromSlash file
  let ext := extGo f
  if ext ≠ ".h" then e
  else
    match e with
    | .element n a cs =>
        .element n a (cs ++ [.element ⟨"", "ClInclude"⟩ [⟨⟨"", "Include"⟩, f⟩] [], .text "\n"])
    | t => t

/-- `overrideHeaders`: clear the attribute list, then run the loop. -/
def overrideHeaders (e : Node) (files : List String) : Node :=
  files.foldl headersStep (clearAttributes e)

/-- The generated entry run of the Sources policy: per matching file, a
`ClCompile` element carrying the path, followed by a newline text child. -/
def sourcesEntries (files : List String) : List Node :=
  files.flatMap fun file =>
    let f := fromSlash file
    let ext := extGo f
    if ext ≠ ".cpp" ∧ ext ≠ ".cxx" then []
    else [.element ⟨"", "ClCompile"⟩ [⟨⟨"", "Include"⟩, f⟩] [], .text "\n"]

/-- The generated entry run of the Headers policy. -/
def headersEntries (files : List String) : List Node :=
  files.flatMap fun file =>
    let f := fromSlash file
    let ext := extGo f
    if ext ≠ ".h" then []
    else [.element ⟨"", "ClInclude"⟩ [⟨⟨"", "Include"⟩, f⟩] [], .text "\n"]

/-! ## ExportProject pipeline (src/msbuild.go lines 145-190)

File handles are abstracted away; the template is given as the token
stream its bytes tokenize to, and the output is the token stream the
rewritten tree is encoded to. -/

/-- The scan callback of `ExportProject` (lines 163-174): iterate over the
matched element's attribute list as captured at loop entry; each `Label`
attribute selects a rewrite of the current element by its value. -/
def applyLabel (files : List String) (e : Node) : Node :=
  match e with
  | .element _ attrs _ =>
      attrs.foldl
        (fun acc attr =>
          if attr.name.lcl = "Label" then
            if attr.value = "Sources" then overrideSources acc files
            else if attr.value = "Headers" then overrideHeaders acc files
            else acc
          else acc)
        e
  | t => t

/-- `ExportProject` after the input file is opened: decode the template
(the error return of `Decode` at line 159 is discarded), rewrite the
matched sections, and encode the result (the error return of `Encode` at
line 185 is likewise discarded).  The function never aborts on a decode
failure: the rewrite runs on the partially decoded tree. -/
def exportProjectModel (toks : List Tok) (files : List String) : Option (List Tok) :=
  some (encNode (scanApply (applyLabel files) (decodeDoc toks).1))

/-! ## SHA-1 and version-5 UUID (`uuid.NewSHA1`, `uuid.Parse`)

The Go code derives the stable identifier of a category path with
`uuid.NewSHA1(space, []byte(path))`: the SHA-1 digest of the namespace
bytes followed by the path bytes, truncated to 16 bytes, with the version
nibble forced to 5 and the variant bits forced to the RFC 4122 form.
Bytes are `Nat` values below 256; 32-bit words are `Nat` values reduced
modulo 2 ^ 32. -/

/-- Rotate a 32-bit word left by `n`. -/
def rotl (n x : Nat) : Nat := ((x <<< n) ||| (x >>> (32 - n))) % 4294967296

/-- The five-word SHA-1 state. -/
structure H5 where
  a : Nat
  b : Nat
  c : Nat
  d : Nat
  e : Nat

/-- Round function of SHA-1 (complement taken within 32 bits). -/
def sha1F (i b c d : Nat) : Nat :=
  if i < 20 then (b &&& c) ||| ((b ^^^ 4294967295) &&& d)
  else if i < 40 then (b ^^^ c) ^^^ d
  else if i < 60 then ((b &&& c) ||| (b &&& d)) ||| (c &&& d)
  else (b ^^^ c) ^^^ d

/-- Round constants of SHA-1. -/
def sha1K (i : Nat) : Nat :=
  if i < 20 then 1518500249
  else if i < 40 then 1859775393
  else if i < 60 then 2400959708
  else 3395469782

/-- Big-endian 4-byte groups to 32-bit words. -/
def bytesToWords : List Nat → List Nat
  | b0 :: b1 :: b2 :: b3 :: rest =>
      (((b0 * 256 + b1) * 256 + b2) * 256 + b3) :: bytesToWords rest
  | _ => []

/-- Message-schedule extension: append `k` further words, each the left
rotation by one of the xor of the words 3, 8, 14 and 16 positions back. -/
def extendWords (w : List Nat) : Nat → List Nat
  | 0 => w
  | k + 1 =>
      let prev := extendWords w k
      let i := prev.length
      prev ++ [rotl 1 ((prev.getD (i - 3) 0 ^^^ prev.getD (i - 8) 0) ^^^
        (prev.getD (i - 14) 0 ^^^ prev.getD (i - 16) 0))]

/-- The eighty SHA-1 rounds over a schedule. -/
def sha1Rounds (ws : List Nat) (h : H5) : H5 :=
  ws.enum.foldl
    (fun st p =>
      let temp := (rotl 5 st.a + sha1F p.1 st.b st.c st.d + st.e + sha1K p.1 + p.2) % 4294967296
      ⟨temp, st.a, rotl 30 st.b, st.c, st.d⟩)
    h

/-- Compress one 64-byte block into the running state. -/
def sha1Block (h : H5) (block : List Nat) : H5 :=
  let ws := extendWords (bytesToWords block) 64
  let r := sha1Rounds ws h
  ⟨(h.a + r.a) % 4294967296, (h.b + r.b) % 4294967296, (h.c + r.c) % 4294967296,
   (h.d + r.d) % 4294967296, (h.e + r.e) % 4294967296⟩

/-- Big-endian 8-byte rendering of a length in bits. -/
def be64 (n : Nat) : List Nat :=
  [n / 72057594037927936 % 256, n / 281474976710656 % 256,
   n / 1099511627776 % 256, n / 4294967296 % 256,
   n / 16777216 % 256, n / 65536 % 256, n / 256 % 256, n % 256]

/-- SHA-1 padding: a 0x80 byte, zeros to 56 modulo 64, and the bit length. -/
def sha1Pad (msg : List Nat) : List Nat :=
  let len := msg.length
  msg ++ 128 :: List.replicate ((120 - (len + 1) % 64) % 64) 0 ++ be64 (len * 8)

/-- Split a byte list into 64-byte blocks (fuel-indexed structural
recursion; fuel `l.length` always suffices since every step consumes at
least one byte). -/
def chunks64Aux : Nat → List Nat → List (List Nat)
  | 0, _ => []
  | _ + 1, [] => []
  | fuel + 1, l => l.take 64 :: chunks64Aux fuel (l.drop 64)

/-- Split a byte list into 64-byte blocks. -/
def chunks64 (l : List Nat) : List (List Nat) := chunks64Aux l.length l

/-- Big-endian bytes of a 32-bit word. -/
def wordBytes (w : Nat) : List Nat :=
  [w / 16777216 % 256, w / 65536 % 256, w / 256 % 256, w % 256]

/-- SHA-1 of a byte list. -/
def sha1 (msg : List Nat) : List Nat :=
  let h := (chunks64 (sha1Pad msg)).foldl sha1Block
    ⟨1732584193, 4023233417, 2562383102, 271733878, 3285377520⟩
  wordBytes h.a ++ wordBytes h.b ++ wordBytes h.c ++ wordBytes h.d ++ wordBytes h.e

/-- UTF-8 bytes of one character. -/
def charUtf8 (c : Char) : List Nat :=
  let n := c.toNat
  if n < 128 then [n]
  else if n < 2048 then [192 + n / 64, 128 + n % 64]
  else if n < 65536 then [224 + n / 4096, 128 + n / 64 % 64, 128 + n % 64]
  else [240 + n / 262144, 128 + n / 4096 % 64, 128 + n / 64 % 64, 128 + n % 64]

/-- UTF-8 bytes of a string (Go `[]byte(path)`). -/
def utf8Bytes (s : String) : List Nat := s.data.flatMap charUtf8

/-- `uuid.NewSHA1`: hash namespace bytes then data, keep 16 bytes, force
version 5 into the high nibble of byte 6 and the RFC 4122 variant into the
two high bits of byte 8. -/
def uuidNewSHA1 (space data : List Nat) : List Nat :=
  let s := sha1 (space ++ data)
  let u := s.take 16
  (u.set 6 ((u.getD 6 0 &&& 15) ||| 80)).set 8 ((u.getD 8 0 &&& 63) ||| 128)

/-- Value of a hexadecimal digit. -/
def hexVal (c : Char) : Option Nat :=
  if '0' ≤ c ∧ c ≤ '9' then some (c.toNat - '0'.toNat)
  else if 'a' ≤ c ∧ c ≤ 'f' then some (c.toNat - 'a'.toNat + 10)
  else if 'A' ≤ c ∧ c ≤ 'F' then some (c.toNat - 'A'.toNat + 10)
  else none

/-- Hexadecimal digit pairs to bytes. -/
def pairsToBytes : List Char → Option (List Nat)
  | [] => some []
  | c1 :: c2 :: rest => do
      let h ← hexVal c1
      let l ← hexVal c2
      let r ← pairsToBytes rest
      pure ((h * 16 + l) :: r)
  | _ => none

/-- `uuid.Parse` restricted to the canonical dashed 36-character form (the
form the namespace constant uses). -/
def parseUUID (s : String) : Option (List Nat) :=
  let cs := s.data
  if cs.length ≠ 36 then none
  else if cs.getD 8 ' ' ≠ '-' ∨ cs.getD 13 ' ' ≠ '-' ∨
      cs.getD 18 ' ' ≠ '-' ∨ cs.getD 23 ' ' ≠ '-' then none
  else pairsToBytes ((((cs.eraseIdx 23).eraseIdx 18).eraseIdx 13).eraseIdx 8)

/-- Lowercase hexadecimal digit. -/
def hexChar (n : Nat) : Char :=
  if n < 10 then Char.ofNat (48 + n) else Char.ofNat (87 + n)

/-- Two hexadecimal digits of a byte. -/
def byteHex (b : Nat) : List Char := [hexChar (b / 16), hexChar (b % 16)]

/-- `uuid.UUID.String`: the dashed 8-4-4-4-12 lowercase hex form. -/
def uuidToString (u : List Nat) : String :=
  ⟨(u.take 4).flatMap byteHex ++ '-' ::
    (((u.drop 4).take 2).flatMap byteHex ++ '-' ::
      (((u.drop 6).take 2).flatMap byteHex ++ '-' ::
        (((u.drop 8).take 2).flatMap byteHex ++ '-' ::
          (u.drop 10).flatMap byteHex)))⟩

/-- The namespace constant of src/msbuild.go (`UUIDSPACE`). -/
def UUIDSPACE : String := "10758f2f-f8bc-4d6b-aeaa-8131bf78a862"

/-- The parsed bytes of `UUIDSPACE`. -/
def uuidSpaceBytes : List Nat :=
  [16, 117, 143, 47, 248, 188, 77, 107, 174, 170, 129, 49, 191, 120, 168, 98]

/-- The stable identifier of a category path (`uuid.NewSHA1(space,
[]byte(path))`, src/msbuild.go line 247). -/
def uuidForPath (space : List Nat) (path : String) : List Nat :=
  uuidNewSHA1 space (utf8Bytes path)

/-! ## Filter Hierarchy Builder (`exportFilter`, src/msbuild.go
lines 192-275) -/

/-- Value of the first attribute of a node, when the node is an element
with at least one attribute (the Go code reads
`elm.(*Element).attributes[0].Value` unconditionally). -/
def firstAttrValue : Node → Option String
  | .element _ (a :: _) _ => some a.value
  | _ => none

/-- A filter declaration: a `Filter` element carrying the path as its
`Include` attribute, with a nested `UniqueIdentifier` child holding the
brace-delimited stable identifier. -/
def mkFilterDecl (space : List Nat) (path : String) : Node :=
  .element ⟨"", "Filter"⟩ [⟨⟨"", "Include"⟩, path⟩]
    [.element ⟨"", "UniqueIdentifier"⟩ []
      [.text ("\x7b" ++ uuidToString (uuidForPath space path) ++ "\x7d")]]

/-- The ancestor walk of `exportFilter` (lines 235-262), fuel-indexed: at
each path, append a filter declaration unless some existing child of the
filters grouping has that path as its first attribute value; then move to
the directory part with the trailing slash stripped, stopping when it is
empty.  Each step shortens the path, so fuel `path.length + 1` always
suffices. -/
def filterWalkAux (space : List Nat) : Nat → List Node → String → List Node
  | 0, filters, _ => filters
  | fuel + 1, filters, path =>
      let found := filters.any fun elm => firstAttrValue elm == some path
      let filters2 := if found then filters else filters ++ [mkFilterDecl space path]
      let d := dirPartS path
      if d.length = 0 then filters2
      else filterWalkAux space fuel filters2 ⟨d.data.dropLast⟩

/-- The ancestor walk of `exportFilter` (lines 235-262). -/
def filterWalk (space : List Nat) (filters : List Node) (path : String) : List Node :=
  filterWalkAux space (path.length + 1) filters path

/-- The two children lists `exportFilter` accumulates: the filters
grouping and the entries grouping. -/
structure FilterState where
  filters : List Node
  entries : List Node

/-- The per-file body of `exportFilter` (lines 212-263): a file whose
directory cannot be made relative to the root is skipped; otherwise the
file is classified by extension (`.h` gives the header category and tag,
anything else the source category and tag), an entry is appended to the
entries grouping, and the ancestor walk updates the filters grouping. -/
def fileStep (space : List Nat) (root : String) (st : FilterState) (file : String) :
    FilterState :=
  let f := fromSlash file
  match relGo root (dirGo f) with
  | none => st
  | some dir =>
      let ext := extGo f
      let nm := if ext = ".h" then joinGo "Header Files" dir else joinGo "Source Files" dir
      let tag := if ext = ".h" then "ClInclude" else "ClCompile"
      let entry := Node.element ⟨"", tag⟩ [⟨⟨"", "Include"⟩, f⟩]
        [Node.element ⟨"", "Filter"⟩ [] [Node.text nm]]
      ⟨filterWalk space st.filters nm, st.entries ++ [entry]⟩

/-- The state after the per-file loop of `exportFilter`. -/
def exportFilterState (space : List Nat) (root : String) (files : List String) :
    FilterState :=
  files.foldl (fileStep space root) ⟨[], []⟩

/-- `exportFilter` (src/msbuild.go lines 192-275) up to encoding: parse
the namespace constant (failure aborts the generation), build the root
`Project` element with its tool-version attribute and the two groupings,
and run the per-file loop.  The root directory, computed by the Go code
from the working directory, is a parameter. -/
def exportFilterDoc (root : String) (files : List String) : Option Node :=
  match parseUUID UUIDSPACE with
  | none => none
  | some space =>
      let st := exportFilterState space root files
      some (.element ⟨"http://schemas.microsoft.com/developer/msbuild/2003", "Project"⟩
        [⟨⟨"", "ToolsVersion"⟩, "4.0"⟩]
        [.element ⟨"", "ItemGroup"⟩ [] st.filters,
         .element ⟨"", "ItemGroup"⟩ [] st.entries])

/-- One entry per resolvable input file, classified by the binary
extension test of `exportFilter`. -/
def entryFor (root : String) (file : String) : Option Node :=
  match relGo root (dirGo (fromSlash file)) with
  | none => none
  | some dir =>
      if extGo (fromSlash file) = ".h" then
        some (.element ⟨"", "ClInclude"⟩ [⟨⟨"", "Include"⟩, fromSlash file⟩]
          [.element ⟨"", "Filter"⟩ [] [.text (joinGo "Header Files" dir)]])
      else
        some (.element ⟨"", "ClCompile"⟩ [⟨⟨"", "Include"⟩, fromSlash file⟩]
          [.element ⟨"", "Filter"⟩ [] [.text (joinGo "Source Files" dir)]])

/-! ## Section Rewriter lemmas -/

theorem foldl_sourcesStep (files : List String) (n : XName) (cs : List Node) :
    files.foldl sourcesStep (.element n [] cs) =
      .element n [] (cs ++ sourcesEntries files) := by
  induction files generalizing cs with
  | nil => simp [sourcesEntries]
  | cons f fs ih =>
      simp only [List.foldl_cons, sourcesStep, sourcesEntries, List.flatMap_cons]
      by_cases hc : extGo (fromSlash f) ≠ ".cpp" ∧ extGo (fromSlash f) ≠ ".cxx"
      · simp [hc, ih, sourcesEntries]
      · simp [hc, ih, sourcesEntries, List.append_assoc]

theorem foldl_headersStep (files : List String) (n : XName) (cs : List Node) :
    files.foldl headersStep (.element n [] cs) =
      .element n [] (cs ++ headersEntries files) := by
  induction files generalizing cs with
  | nil => simp [headersEntries]
  | cons f fs ih =>
      simp only [List.foldl_cons, headersStep, headersEntries, List.flatMap_cons]
      by_cases hc : extGo (fromSlash f) ≠ ".h"
      · simp [hc, ih, headersEntries]
      · simp [hc, ih, headersEntries, List.append_assoc]

theorem overrideSources_eq (n : XName) (a : List XAttr) (cs : List Node)
    (files : List String) :
    overrideSources (.element n a cs) files = .element n [] (cs ++ sourcesEntries files) := by
  simp [overrideSources, clearAttributes, foldl_sourcesStep]

theorem overrideHeaders_eq (n : XName) (a : List XAttr) (cs : List Node)
    (files : List String) :
    overrideHeaders (.element n a cs) files = .element n [] (cs ++ headersEntries files) := by
  simp [overrideHeaders, clearAttributes, foldl_headersStep]

/-- C1 (counterexample).  The rewrite is not destructive on children: a
matched grouping element with an original comment child and an original
attribute is rewritten by the Sources policy to something other than the
freshly generated entry list alone — the original child survives. -/
theorem rewrite_not_destructive_cex :
    overrideSources
        (.element ⟨"", "ItemGroup"⟩ [⟨⟨"", "Label"⟩, "Sources"⟩] [.comment "orig"])
        ["a.cpp"] ≠
      .element ⟨"", "ItemGroup"⟩ [] (sourcesEntries ["a.cpp"]) := by decide

/-- C1 (amended).  Both rewrite policies clear the matched element's
attribute list wholesale, but leave its original children in place: the
resulting content is the original children followed by the newly generated
entries (an entry element per matching file, each followed by a newline
text child). -/
theorem rewrite_clears_attrs_keeps_children (n : XName) (a : List XAttr)
    (cs : List Node) (files : List String) :
    (attrsOf (overrideSources (.element n a cs) files) = [] ∧
      childrenOf (overrideSources (.element n a cs) files) = cs ++ sourcesEntries files) ∧
    (attrsOf (overrideHeaders (.element n a cs) files) = [] ∧
      childrenOf (overrideHeaders (.element n a cs) files) = cs ++ headersEntries files) := by
  rw [overrideSources_eq, overrideHeaders_eq]
  exact ⟨⟨rfl, rfl⟩, ⟨rfl, rfl⟩⟩

/-- C4.  Extension filtering: on `["a.cpp","b.h","c.cxx","d.txt"]` the
Sources policy generates exactly the two entries for `a.cpp` and `c.cxx`
in that order and the Headers policy exactly the one for `b.h` (`d.txt`
appears in neither); in general each policy appends, in input order and
without deduplication, one entry per file whose extension is recognized —
the entry carries the file path as its sole attribute and is followed by a
single-newline text child — and non-matching files produce nothing. -/
theorem extension_filtering :
    (overrideSources (.element ⟨"", "ItemGroup"⟩ [] []) ["a.cpp", "b.h", "c.cxx", "d.txt"] =
      .element ⟨"", "ItemGroup"⟩ []
        [.element ⟨"", "ClCompile"⟩ [⟨⟨"", "Include"⟩, "a.cpp"⟩] [], .text "\n",
         .element ⟨"", "ClCompile"⟩ [⟨⟨"", "Include"⟩, "c.cxx"⟩] [], .text "\n"]) ∧
    (overrideHeaders (.element ⟨"", "ItemGroup"⟩ [] []) ["a.cpp", "b.h", "c.cxx", "d.txt"] =
      .element ⟨"", "ItemGroup"⟩ []
        [.element ⟨"", "ClInclude"⟩ [⟨⟨"", "Include"⟩, "b.h"⟩] [], .text "\n"]) ∧
    (∀ (n : XName) (a : List XAttr) (cs : List Node) (files : List String),
      overrideSources (.element n a cs) files =
        .element n [] (cs ++ files.flatMap fun f =>
          if extGo (fromSlash f) = ".cpp" ∨ extGo (fromSlash f) = ".cxx" then
            [.element ⟨"", "ClCompile"⟩ [⟨⟨"", "Include"⟩, fromSlash f⟩] [], .text "\n"]
          else [])) ∧
    (∀ (n : XName) (a : List XAttr) (cs : List Node) (files : List String),
      overrideHeaders (.element n a cs) files =
        .element n [] (cs ++ files.flatMap fun f =>
          if extGo (fromSlash f) = ".h" then
            [.element ⟨"", "ClInclude"⟩ [⟨⟨"", "Include"⟩, fromSlash f⟩] [], .text "\n"]
          else [])) := by
  refine ⟨by decide, by decide, ?_, ?_⟩
  · intro n a cs files
    rw [overrideSources_eq]
    congr 1
    congr 1
    apply List.flatMap_congr ?_
    intro f _
    by_cases h1 : extGo (fromSlash f) = ".cpp" <;>
      by_cases h2 : extGo (fromSlash f) = ".cxx" <;>
      simp [h1, h2]
  · intro n a cs files
    rw [overrideHeaders_eq]
    congr 1
    congr 1
    apply List.flatMap_congr ?_
    intro f _
    by_cases h1 : extGo (fromSlash f) = ".h" <;> simp [h1]

/-! ## Tree Scanner contract -/

mutual

theorem elemsAnn_true_snd (t : Node) :
    ∀ p ∈ elemsAnn true t, p.2 = true := by
  cases t with
  | element n a cs =>
      intro p hp
      simp only [elemsAnn, Bool.true_or, List.mem_cons] at hp
      rcases hp with h | h
      · rw [h]
      · exact elemsAnnKids_true_snd cs p h
  | text s => intro p hp; simp [elemsAnn] at hp
  | comment s => intro p hp; simp [elemsAnn] at hp

theorem elemsAnnKids_true_snd (cs : List Node) :
    ∀ p ∈ elemsAnnKids true cs, p.2 = true := by
  cases cs with
  | nil => intro p hp; simp [elemsAnnKids] at hp
  | cons c rest =>
      intro p hp
      simp only [elemsAnnKids, List.mem_append] at hp
      rcases hp with h | h
      · exact elemsAnn_true_snd c p h
      · exact elemsAnnKids_true_snd rest p h

end

theorem elemsAnn_true_filter (t : Node) :
    ((elemsAnn true t).filter fun p => isMatch p.1 && !p.2) = [] := by
  rw [List.filter_eq_nil_iff]
  intro p hp
  rw [elemsAnn_true_snd t p hp]
  simp

theorem elemsAnnKids_true_filter (cs : List Node) :
    ((elemsAnnKids true cs).filter fun p => isMatch p.1 && !p.2) = [] := by
  rw [List.filter_eq_nil_iff]
  intro p hp
  rw [elemsAnnKids_true_snd cs p hp]
  simp

mutual

theorem scanList_eq_specScan (t : Node) : scanList t = specScan t := by
  cases t with
  | element n a cs =>
      by_cases h : n.lcl = "ItemGroup"
      · have hb : (n.lcl == "ItemGroup") = true := by simp [h]
        have hs : scanList (.element n a cs) = [.element n a cs] := by
          simp [scanList, h]
        have e1 : elemsAnn false (.element n a cs) =
            (Node.element n a cs, false) :: elemsAnnKids true cs := by
          simp [elemsAnn, hb]
        have hm : (isMatch (Node.element n a cs) && !(false : Bool)) = true := by
          simp [isMatch, hb]
        rw [hs, specScan, e1, List.filter_cons]
        rw [hm]
        simp only [if_true, elemsAnnKids_true_filter, List.map_cons, List.map_nil]
      · have hb : (n.lcl == "ItemGroup") = false := by simp [h]
        have hs : scanList (.element n a cs) = scanKids cs := by
          simp [scanList, h]
        have e1 : elemsAnn false (.element n a cs) =
            (Node.element n a cs, false) :: elemsAnnKids false cs := by
          simp [elemsAnn, hb]
        have hm : (isMatch (Node.element n a cs) && !(false : Bool)) = false := by
          simp [isMatch, hb]
        rw [hs, specScan, e1, List.filter_cons]
        rw [hm]
        simp only [Bool.false_eq_true, if_false]
        exact scanKids_eq_specScan cs
  | text s => simp [scanList, specScan, elemsAnn]
  | comment s => simp [scanList, specScan, elemsAnn]

theorem scanKids_eq_specScan (cs : List Node) :
    scanKids cs = ((elemsAnnKids false cs).filter fun p => isMatch p.1 && !p.2).map Prod.fst := by
  cases cs with
  | nil => simp [scanKids, elemsAnnKids]
  | cons c rest =>
      cases c with
      | element n a cs2 =>
          simp only [scanKids, elemsAnnKids, List.filter_append, List.map_append]
          rw [scanList_eq_specScan (.element n a cs2), scanKids_eq_specScan rest]
          rfl
      | text s =>
          simp only [scanKids, elemsAnnKids, elemsAnn, List.nil_append]
          exact scanKids_eq_specScan rest
      | comment s =>
          simp only [scanKids, elemsAnnKids, elemsAnn, List.nil_append]
          exact scanKids_eq_specScan rest

end

/-- C5.  Tree Scanner contract: the scan visits exactly the matching
elements (local name equal to the target tag) that lie outside any matched
subtree, in depth-first pre-order document order, never descending into a
matched element and never descending into text or comment children; in
particular every visited node is a match. -/
theorem scanner_contract (t : Node) :
    scanList t = specScan t ∧ ∀ m ∈ scanList t, isMatch m = true := by
  refine ⟨scanList_eq_specScan t, ?_⟩
  intro m hm
  rw [scanList_eq_specScan t] at hm
  simp only [specScan, List.mem_map, List.mem_filter] at hm
  obtain ⟨p, ⟨_, hp2⟩, hp3⟩ := hm
  rw [← hp3]
  exact (Bool.and_eq_true _ _ |>.mp hp2).1

/-- Witness for C5 at a concrete template tree: the scan of a root with a
nested matching group and a match below a match visits exactly the outer
matches, and each visited node matches. -/
theorem scanner_contract_witness :
    (scanList (.element ⟨"", "Project"⟩ []
        [.text "a",
         .element ⟨"", "ItemGroup"⟩ [⟨⟨"", "Label"⟩, "Sources"⟩]
           [.element ⟨"", "ItemGroup"⟩ [] []],
         .element ⟨"", "Other"⟩ [] [.element ⟨"", "ItemGroup"⟩ [] []]]) =
      specScan (.element ⟨"", "Project"⟩ []
        [.text "a",
         .element ⟨"", "ItemGroup"⟩ [⟨⟨"", "Label"⟩, "Sources"⟩]
           [.element ⟨"", "ItemGroup"⟩ [] []],
         .element ⟨"", "Other"⟩ [] [.element ⟨"", "ItemGroup"⟩ [] []]])) ∧
    isMatch (.element ⟨"", "ItemGroup"⟩ [⟨⟨"", "Label"⟩, "Sources"⟩]
      [.element ⟨"", "ItemGroup"⟩ [] []]) = true := by
  constructor
  · exact (scanner_contract _).1
  · exact (scanner_contract (.element ⟨"", "Project"⟩ []
      [.text "a",
       .element ⟨"", "ItemGroup"⟩ [⟨⟨"", "Label"⟩, "Sources"⟩]
         [.element ⟨"", "ItemGroup"⟩ [] []],
       .element ⟨"", "Other"⟩ [] [.element ⟨"", "ItemGroup"⟩ [] []]])).2 _ (by decide)

/-! ## Round-trip of the codec -/

mutual

theorem stripNode_id (t : Node) (h : nsFree t = true) : stripNode t = t := by
  cases t with
  | element n a cs =>
      simp only [nsFree, Bool.and_eq_true, beq_iff_eq] at h
      simp only [stripNode, stripList_id cs h.2]
      cases n
      simp_all [stripXName]
  | text s => rfl
  | comment s => rfl

theorem stripList_id (ts : List Node) (h : nsFreeList ts = true) : stripList ts = ts := by
  cases ts with
  | nil => rfl
  | cons c cs =>
      simp only [nsFreeList, Bool.and_eq_true] at h
      simp only [stripList, stripNode_id c h.1, stripList_id cs h.2]

end

theorem encList_cons (t : Node) (ts : List Node) :
    encList (t :: ts) = encNode t ++ encList ts := by
  simp [encList]

/-- With enough fuel, decoding the encoding of a children list up to the
enclosing end tag yields exactly those children with namespaces stripped,
consumes exactly through the end tag, and reports no error. -/
theorem decContent_encList :
    ∀ (k : Nat) (ts : List Node), (encList ts).length ≤ k →
      ∀ (m : XName) (rest : List Tok) (fuel : Nat), (encList ts).length < fuel →
        decContent fuel (encList ts ++ .stop m :: rest) = ⟨stripList ts, rest, false⟩ := by
  intro k
  induction k using Nat.strong_induction_on with
  | _ k ih =>
      intro ts hk m rest fuel hf
      match ts with
      | [] =>
          simp only [encList] at hf ⊢
          match fuel, hf with
          | f + 1, _ => simp [decContent, stripList]
      | .text s :: ts2 =>
          rw [encList_cons] at hk hf ⊢
          simp only [encNode, List.length_append, List.length_cons, List.length_nil] at hk hf
          match fuel, hf with
          | f + 1, _ =>
              have h2 : (encList ts2).length < f := by omega
              have h1 : (encList ts2).length < k := by omega
              simp only [encNode, List.cons_append, List.nil_append, decContent,
                List.append_eq]
              rw [ih (encList ts2).length h1 ts2 le_rfl m rest f h2]
              simp [stripList, stripNode]
      | .comment s :: ts2 =>
          rw [encList_cons] at hk hf ⊢
          simp only [encNode, List.length_append, List.length_cons, List.length_nil] at hk hf
          match fuel, hf with
          | f + 1, _ =>
              have h2 : (encList ts2).length < f := by omega
              have h1 : (encList ts2).length < k := by omega
              simp only [encNode, List.cons_append, List.nil_append, decContent,
                List.append_eq]
              rw [ih (encList ts2).length h1 ts2 le_rfl m rest f h2]
              simp [stripList, stripNode]
      | .element n2 a2 cs2 :: ts2 =>
          rw [encList_cons] at hk hf ⊢
          simp only [encNode, List.length_append, List.length_cons] at hk hf
          match fuel, hf with
          | f + 1, _ =>
              have hc1 : (encList cs2).length < k := by omega
              have hc2 : (encList cs2).length < f := by omega
              have ht1 : (encList ts2).length < k := by omega
              have ht2 : (encList ts2).length < f := by omega
              have harr : encNode (Node.element n2 a2 cs2) ++ encList ts2 ++
                  Tok.stop m :: rest =
                  Tok.start n2 a2 :: (encList cs2 ++ Tok.stop n2 ::
                    (encList ts2 ++ Tok.stop m :: rest)) := by
                simp [encNode, List.append_assoc]
              rw [harr]
              simp only [decContent]
              rw [ih (encList cs2).length hc1 cs2 le_rfl n2
                (encList ts2 ++ Tok.stop m :: rest) f hc2]
              simp only [Bool.false_eq_true, if_false]
              rw [ih (encList ts2).length ht1 ts2 le_rfl m rest f ht2]
              simp [stripList, stripNode]

/-- Decoding the encoding of an element-rooted tree yields the tree with
all element namespaces stripped, and no error. -/
theorem decodeDoc_encNode (n : XName) (a : List XAttr) (cs : List Node) :
    decodeDoc (encNode (.element n a cs)) =
      (.element (stripXName n) a (stripList cs), false) := by
  simp only [encNode, decodeDoc, List.append_eq]
  rw [decContent_encList (encList cs).length cs le_rfl n [] (encList cs ++ [Tok.stop n]).length
    (by simp)]

/-- C2.  Round-trip fidelity at the token level: for any element-rooted
tree whose element names carry no namespace (as holds for every tree built
through the public mutation operations, which only ever set local names),
encoding, decoding the result, and encoding again reproduces the first
encoding exactly — indeed decoding the encoding gives back the very same
tree — and the decode reports no error. -/
theorem encode_decode_roundtrip (n : XName) (a : List XAttr) (cs : List Node)
    (hns : nsFree (.element n a cs) = true) :
    encNode ((decodeDoc (encNode (.element n a cs))).1) = encNode (.element n a cs) ∧
    (decodeDoc (encNode (.element n a cs))).2 = false := by
  rw [decodeDoc_encNode]
  have h := stripNode_id (.element n a cs) hns
  simp only [stripNode] at h
  rw [h]
  exact ⟨rfl, rfl⟩

/-! ## Filter Hierarchy Builder lemmas -/

theorem firstAttrValue_mkFilterDecl (space : List Nat) (p : String) :
    firstAttrValue (mkFilterDecl space p) = some p := rfl

theorem filterWalkAux_mem (space : List Nat) (P : Node → Prop)
    (hP : ∀ p, P (mkFilterDecl space p)) :
    ∀ (fuel : Nat) (filters : List Node) (path : String),
      (∀ elm ∈ filters, P elm) →
      ∀ elm ∈ filterWalkAux space fuel filters path, P elm := by
  intro fuel
  induction fuel with
  | zero =>
      intro filters path h elm hm
      exact h elm (by simpa [filterWalkAux] using hm)
  | succ f ih =>
      intro filters path h elm hm
      simp only [filterWalkAux] at hm
      have h2 : ∀ e ∈ (if (filters.any fun e2 => firstAttrValue e2 == some path) = true
          then filters else filters ++ [mkFilterDecl space path]), P e := by
        split
        · exact h
        · intro e he
          rcases List.mem_append.mp he with he2 | he2
          · exact h e he2
          · rw [List.mem_singleton.mp he2]
            exact hP path
      split at hm
      · exact h2 elm hm
      · exact ih _ _ h2 elm hm

theorem filterWalkAux_nodup (space : List Nat) :
    ∀ (fuel : Nat) (filters : List Node) (path : String),
      (filters.map firstAttrValue).Nodup →
      ((filterWalkAux space fuel filters path).map firstAttrValue).Nodup := by
  intro fuel
  induction fuel with
  | zero =>
      intro filters path h
      simpa [filterWalkAux] using h
  | succ f ih =>
      intro filters path h
      simp only [filterWalkAux]
      have h2 : (((if (filters.any fun e2 => firstAttrValue e2 == some path) = true
          then filters else filters ++ [mkFilterDecl space path])).map firstAttrValue).Nodup := by
        split
        · exact h
        · rename_i hfound
          rw [List.map_append]
          rw [List.nodup_append]
          refine ⟨h, by simp, ?_⟩
          intro v hv hv2
          simp only [List.map_cons, List.map_nil, firstAttrValue_mkFilterDecl,
            List.mem_singleton] at hv2
          subst hv2
          obtain ⟨e, he, hev⟩ := List.mem_map.mp hv
          apply hfound
          rw [List.any_eq_true]
          exact ⟨e, he, by simp [hev]⟩
      split
      · exact h2
      · exact ih _ _ h2

theorem foldl_fileStep_filters_mem (space : List Nat) (root : String) (P : Node → Prop)
    (hP : ∀ p, P (mkFilterDecl space p)) :
    ∀ (files : List String) (st : FilterState), (∀ elm ∈ st.filters, P elm) →
      ∀ elm ∈ (files.foldl (fileStep space root) st).filters, P elm := by
  intro files
  induction files with
  | nil =>
      intro st h elm hm
      exact h elm (by simpa using hm)
  | cons f fs ih =>
      intro st h elm hm
      simp only [List.foldl_cons] at hm
      refine ih (fileStep space root st f) ?_ elm hm
      simp only [fileStep]
      split
      · exact h
      · intro e he
        exact filterWalkAux_mem space P hP _ st.filters _ h e he

theorem foldl_fileStep_filters_nodup (space : List Nat) (root : String) :
    ∀ (files : List String) (st : FilterState), (st.filters.map firstAttrValue).Nodup →
      (((files.foldl (fileStep space root) st).filters).map firstAttrValue).Nodup := by
  intro files
  induction files with
  | nil =>
      intro st h
      simpa using h
  | cons f fs ih =>
      intro st h
      simp only [List.foldl_cons]
      refine ih (fileStep space root st f) ?_
      simp only [fileStep]
      split
      · exact h
      · exact filterWalkAux_nodup space _ st.filters _ h

theorem foldl_fileStep_entries (space : List Nat) (root : String) :
    ∀ (files : List String) (st : FilterState),
      (files.foldl (fileStep space root) st).entries =
        st.entries ++ files.filterMap (entryFor root) := by
  intro files
  induction files with
  | nil => intro st; simp
  | cons f fs ih =>
      intro st
      simp only [List.foldl_cons, List.filterMap_cons]
      rw [ih]
      simp only [fileStep, entryFor]
      cases hrel : relGo root (dirGo (fromSlash f)) with
      | none => simp
      | some dir =>
          by_cases hx : extGo (fromSlash f) = ".h" <;>
            simp [hx, List.append_assoc]

/-- Witness for C2 at a concrete tree with an attribute and all three
child kinds. -/
theorem encode_decode_roundtrip_witness :
    nsFree (.element ⟨"", "Project"⟩ [⟨⟨"", "ToolsVersion"⟩, "4.0"⟩]
      [.text "x", .comment "c", .element ⟨"", "ItemGroup"⟩ [] [.text "y"]]) = true ∧
    encNode ((decodeDoc (encNode (.element ⟨"", "Project"⟩ [⟨⟨"", "ToolsVersion"⟩, "4.0"⟩]
        [.text "x", .comment "c", .element ⟨"", "ItemGroup"⟩ [] [.text "y"]]))).1) =
      encNode (.element ⟨"", "Project"⟩ [⟨⟨"", "ToolsVersion"⟩, "4.0"⟩]
        [.text "x", .comment "c", .element ⟨"", "ItemGroup"⟩ [] [.text "y"]]) :=
  ⟨by decide,
    (encode_decode_roundtrip ⟨"", "Project"⟩ [⟨⟨"", "ToolsVersion"⟩, "4.0"⟩]
      [.text "x", .comment "c", .element ⟨"", "ItemGroup"⟩ [] [.text "y"]] (by decide)).1⟩

/-- C3.  Filter deduplication: for `["src/a.cpp","src/b.cpp","inc/a.h"]`
against root `.` the filters grouping holds exactly the four declarations
`Source Files/src`, `Source Files`, `Header Files/inc`, `Header Files`,
each exactly once; and in general a declaration is created only when no
existing child of the filters grouping carries the same path as its first
attribute value, so the first-attribute values of the filters grouping are
always pairwise distinct. -/
theorem filter_dedup :
    ((exportFilterState uuidSpaceBytes "." ["src/a.cpp", "src/b.cpp", "inc/a.h"]).filters.map
        firstAttrValue =
      [some "Source Files/src", some "Source Files", some "Header Files/inc",
        some "Header Files"]) ∧
    ∀ (space : List Nat) (root : String) (files : List String),
      ((exportFilterState space root files).filters.map firstAttrValue).Nodup := by
  constructor
  · decide
  · intro space root files
    exact foldl_fileStep_filters_nodup space root files ⟨[], []⟩ (by simp)

/-- C7.  Skip on unresolvable path: a file whose directory cannot be made
relative to the root contributes no entry and no filter declaration, and
the state produced for the whole list equals the state produced with that
file absent, so later files are unaffected. -/
theorem skip_unresolvable (space : List Nat) (root : String) (pre post : List String)
    (f : String) (h : relGo root (dirGo (fromSlash f)) = none) :
    exportFilterState space root (pre ++ f :: post) =
      exportFilterState space root (pre ++ post) := by
  unfold exportFilterState
  rw [List.foldl_append, List.foldl_append, List.foldl_cons]
  have hstep : fileStep space root (pre.foldl (fileStep space root) ⟨[], []⟩) f =
      pre.foldl (fileStep space root) ⟨[], []⟩ := by
    simp only [fileStep]
    rw [h]
  rw [hstep]

/-- Witness for C7: `a.cpp` has directory `.`, which cannot be made
relative to the rooted path `/r`, so it is skipped and the remaining files
produce the same state. -/
theorem skip_unresolvable_witness :
    relGo "/r" (dirGo (fromSlash "a.cpp")) = none ∧
    exportFilterState [] "/r" (["/r/ok.cpp"] ++ "a.cpp" :: ["/r/inc/x.h"]) =
      exportFilterState [] "/r" (["/r/ok.cpp"] ++ ["/r/inc/x.h"]) :=
  ⟨by decide, skip_unresolvable [] "/r" ["/r/ok.cpp"] ["/r/inc/x.h"] "a.cpp" (by decide)⟩

/-- C9.  The filter builder emits exactly one entry per input file whose
directory resolves against the root, whatever its extension: the
classification is the binary test where `.h` yields the header category
and tag and every other extension (including `.txt`) yields the source
category and compile-unit tag; no file is dropped from the filter document
because of its extension. -/
theorem entries_binary_classification :
    (∀ (space : List Nat) (root : String) (files : List String),
      (exportFilterState space root files).entries = files.filterMap (entryFor root)) ∧
    (∀ (root file : String), (entryFor root file).isSome =
      (relGo root (dirGo (fromSlash file))).isSome) ∧
    (entryFor "." "d.txt" =
      some (.element ⟨"", "ClCompile"⟩ [⟨⟨"", "Include"⟩, "d.txt"⟩]
        [.element ⟨"", "Filter"⟩ [] [.text "Source Files"]])) ∧
    (entryFor "." "inc/a.h" =
      some (.element ⟨"", "ClInclude"⟩ [⟨⟨"", "Include"⟩, "inc/a.h"⟩]
        [.element ⟨"", "Filter"⟩ [] [.text "Header Files/inc"]])) := by
  refine ⟨?_, ?_, by decide, by decide⟩
  · intro space root files
    have h := foldl_fileStep_entries space root files ⟨[], []⟩
    simpa [exportFilterState] using h
  · intro root file
    cases hr : relGo root (dirGo (fromSlash file)) with
    | none => simp [entryFor, hr]
    | some dir =>
        simp only [entryFor, hr]
        split <;> simp

/-- C10.  Safety of the existence check: every child ever appended to the
filters grouping is a filter declaration element whose attribute list is
exactly the single `Include` attribute holding the category path, so the
unchecked type assertion and index-0 attribute access of the per-file loop
are always safe and always compare against the path. -/
theorem filters_first_attr_safe (space : List Nat) (root : String) (files : List String) :
    ∀ elm ∈ (exportFilterState space root files).filters,
      ∃ p : String, elm = mkFilterDecl space p ∧ attrsOf elm = [⟨⟨"", "Include"⟩, p⟩] ∧
        firstAttrValue elm = some p := by
  intro elm hm
  have h := foldl_fileStep_filters_mem space root
    (fun e => ∃ p, e = mkFilterDecl space p) (fun p => ⟨p, rfl⟩) files ⟨[], []⟩
    (by simp) elm hm
  obtain ⟨p, hp⟩ := h
  refine ⟨p, hp, ?_, ?_⟩
  · rw [hp]; rfl
  · rw [hp]; rfl

/-! ## Stable identifier lemmas -/

theorem sha1_length (msg : List Nat) : (sha1 msg).length = 20 := by
  simp [sha1, wordBytes]

theorem uuidForPath_length (space : List Nat) (p : String) :
    (uuidForPath space p).length = 16 := by
  simp [uuidForPath, uuidNewSHA1, List.length_set, List.length_take, sha1_length]

theorem uuid_version_nibble (space : List Nat) (p : String) :
    (uuidForPath space p).getD 6 0 / 16 = 5 := by
  unfold uuidForPath uuidNewSHA1
  have hlen : ((sha1 (space ++ utf8Bytes p)).take 16).length = 16 := by
    simp [List.length_take, sha1_length]
  rw [List.getD_eq_getElem?_getD, List.getElem?_set_ne (by omega : (8 : Nat) ≠ 6),
    List.getElem?_set_self (by rw [hlen]; omega)]
  have hle : (((sha1 (space ++ utf8Bytes p)).take 16).getD 6 0 &&& 15) ≤ 15 :=
    Nat.and_le_right
  have key : ∀ x : Nat, x < 16 → (x ||| 80) / 16 = 5 := by decide
  exact key _ (by omega)

theorem uuid_variant_bits (space : List Nat) (p : String) :
    (uuidForPath space p).getD 8 0 / 64 = 2 := by
  unfold uuidForPath uuidNewSHA1
  have hlen : (((sha1 (space ++ utf8Bytes p)).take 16).set 6
      ((((sha1 (space ++ utf8Bytes p)).take 16).getD 6 0 &&& 15) ||| 80)).length = 16 := by
    simp [List.length_set, List.length_take, sha1_length]
  rw [List.getD_eq_getElem?_getD, List.getElem?_set_self (by rw [hlen]; omega)]
  have hle : (((sha1 (space ++ utf8Bytes p)).take 16).getD 8 0 &&& 63) ≤ 63 :=
    Nat.and_le_right
  have key : ∀ x : Nat, x < 64 → (x ||| 128) / 64 = 2 := by decide
  exact key _ (by omega)

/-- C6.  Identifier determinism: the stable identifier is a pure function
of the namespace constant and the category path — equal paths give equal
identifiers; the namespace constant parses to its sixteen bytes; the
identifier is the version-5-style UUID over the UTF-8 bytes of the path (a
128-bit value, sixteen bytes, with version nibble 5 and RFC 4122 variant
bits); and the two distinct category folders of the builder receive
distinct identifiers. -/
theorem stable_identifier :
    (∀ p1 p2 : String, p1 = p2 →
      uuidForPath uuidSpaceBytes p1 = uuidForPath uuidSpaceBytes p2) ∧
    parseUUID UUIDSPACE = some uuidSpaceBytes ∧
    (∀ (space : List Nat) (p : String),
      uuidForPath space p = uuidNewSHA1 space (utf8Bytes p) ∧
      (uuidForPath space p).length = 16 ∧
      (uuidForPath space p).getD 6 0 / 16 = 5 ∧
      (uuidForPath space p).getD 8 0 / 64 = 2) ∧
    uuidForPath uuidSpaceBytes "Source Files" ≠ uuidForPath uuidSpaceBytes "Header Files" := by
  refine ⟨?_, by decide, ?_, by decide⟩
  · intro p1 p2 h
    rw [h]
  · intro space p
    exact ⟨rfl, uuidForPath_length space p, uuid_version_nibble space p,
      uuid_variant_bits space p⟩

/-- Witness for C6: deriving the identifier for the same path twice gives
the same value. -/
theorem stable_identifier_witness :
    ("Source Files" : String) = "Source Files" ∧
    uuidForPath uuidSpaceBytes "Source Files" = uuidForPath uuidSpaceBytes "Source Files" :=
  ⟨rfl, stable_identifier.1 "Source Files" "Source Files" rfl⟩

/-- C8 (counterexample).  A decode failure does not abort `ExportProject`:
on a template whose token stream ends in a tokenizer error, the decode
reports an error, yet the pipeline still produces output — computed from
the partially decoded tree (the children read before the error are kept). -/
theorem error_propagation_cex :
    (decodeDoc [Tok.start ⟨"", "Project"⟩ [], Tok.chardata "x", Tok.bad]).2 = true ∧
    exportProjectModel [Tok.start ⟨"", "Project"⟩ [], Tok.chardata "x", Tok.bad] [] ≠ none ∧
    (decodeDoc [Tok.start ⟨"", "Project"⟩ [], Tok.chardata "x", Tok.bad]).1 =
      .element ⟨"", "Project"⟩ [] [.text "x"] := by
  refine ⟨by decide, by simp [exportProjectModel], by decide⟩

/-- C8 (amended).  Decode and encode failures are silently discarded
rather than propagated: `ExportProject` always produces output, namely the
encoding of the rewritten, possibly only partially decoded template tree
(only the file-open failures abort the operation, with a printed message
rather than an error value). -/
theorem error_propagation_amended (toks : List Tok) (files : List String) :
    exportProjectModel toks files =
      some (encNode (scanApply (applyLabel files) (decodeDoc toks).1)) ∧
    exportProjectModel toks files ≠ none :=
  ⟨rfl, by simp [exportProjectModel]⟩

/-- Witness for C10 at the one-file input `["a.cpp"]` against root `.`. -/
theorem filters_first_attr_safe_witness :
    (mkFilterDecl uuidSpaceBytes "Source Files") ∈
      (exportFilterState uuidSpaceBytes "." ["a.cpp"]).filters ∧
    ∃ p : String, mkFilterDecl uuidSpaceBytes "Source Files" = mkFilterDecl uuidSpaceBytes p ∧
      attrsOf (mkFilterDecl uuidSpaceBytes "Source Files") = [⟨⟨"", "Include"⟩, p⟩] ∧
      firstAttrValue (mkFilterDecl uuidSpaceBytes "Source Files") = some p :=
  ⟨by decide, filters_first_attr_safe uuidSpaceBytes "." ["a.cpp"] _ (by decide)⟩

end MSBuild
